import Mathlib

/-!
Verification of the `latest-version` tool: a shallow embedding in Lean 4.

The repository ships a thin Python surface (`latest_version/__init__.py`,
`latest_version/__main__.py`) over a compiled extension module
`latest_version._latest_version` that provides `find_executables`,
`get_version`, `find_latest_command` and `ExecutableInfo`.  The extension
module's source is not part of the repository tree, so the core engine
(PathScanner, VersionProbe, VersionComparator, LatestSelector) is modelled
here from the specification's words; the CLI (`__main__.py`) is embedded from
its Python source.
-/

namespace LatestVersion

/-- Modelled from the spec: the `ExecutableInfo` record of the missing
extension module `latest_version._latest_version` — the result record owning
a candidate path and its associated version string. -/
structure ExecutableInfo where
  path : String
  version : String
deriving DecidableEq, Repr

/-- Modelled from the spec: a `ParsedVersion` is either a malformed string
(no leading numeric-dotted run; the raw text is kept for last-resort lexical
comparison) or a sequence of integer segments plus an optional suffix. -/
inductive ParsedVersion where
  | malformed (raw : String)
  | wellformed (segs : List Nat) (suffix : Option String)
deriving DecidableEq, Repr

/-- Plain lexicographic comparison of two segment lists, position by
position, by integer comparison. -/
def cmpList : List Nat → List Nat → Ordering
  | [], [] => .eq
  | [], _ :: _ => .lt
  | _ :: _, [] => .gt
  | x :: xs, y :: ys =>
    if x < y then .lt else if y < x then .gt else cmpList xs ys

/-- Pad a segment list with trailing zeros up to length `n`. -/
def padTo (l : List Nat) (n : Nat) : List Nat :=
  l ++ List.replicate (n - l.length) 0

/-- The code points of a string, in order. -/
def strCodes (s : String) : List Nat := s.data.map Char.toNat

/-- Plain (Python-style) string comparison: lexicographic by code point. -/
def cmpStr (a b : String) : Ordering := cmpList (strCodes a) (strCodes b)

/-- Modelled from the spec: numeric segments are compared position by
position by integer comparison; missing trailing segments are treated as `0`
when compared against a longer sequence. -/
def compareSegs (a b : List Nat) : Ordering :=
  cmpList (padTo a (max a.length b.length)) (padTo b (max a.length b.length))

/-- Modelled from the spec: a present suffix is older than an absent one;
two present suffixes are compared as plain strings. -/
def compareSuffix : Option String → Option String → Ordering
  | none, none => .eq
  | some _, none => .lt
  | none, some _ => .gt
  | some a, some b => cmpStr a b

/-- Modelled from the spec: `VersionComparator.compare`.  A malformed string
is strictly less than any well-formed one; two malformed strings compare by
raw lexical string order; two well-formed versions compare by numeric
segments first and by suffix on a numeric tie. -/
def compareVersions : ParsedVersion → ParsedVersion → Ordering
  | .malformed a, .malformed b => cmpStr a b
  | .malformed _, .wellformed _ _ => .lt
  | .wellformed _ _, .malformed _ => .gt
  | .wellformed sa fa, .wellformed sb fb =>
    match compareSegs sa sb with
    | .eq => compareSuffix fa fb
    | o => o

/-- Numeric value of a digit character. -/
def digitVal (c : Char) : Nat := c.toNat - 48

/-- Modelled from the spec: consume the leading numeric-dotted run of a
character list.  `cur` is the number being accumulated, `acc` the segments
already finished (in reverse).  Returns the segments and the remaining
characters (the suffix). -/
def runAux : List Char → Nat → List Nat → List Nat × List Char
  | [], cur, acc => ((cur :: acc).reverse, [])
  | c :: cs, cur, acc =>
    if c.isDigit then runAux cs (cur * 10 + digitVal c) acc
    else if c = '.' then
      match cs with
      | d :: _ =>
        if d.isDigit then runAux cs 0 (cur :: acc)
        else ((cur :: acc).reverse, c :: cs)
      | [] => ((cur :: acc).reverse, c :: cs)
    else ((cur :: acc).reverse, c :: cs)

/-- Modelled from the spec: the leading numeric-dotted run of a string, if
any: `none` when the string does not start with a digit, otherwise the
integer segments and the remaining characters. -/
def takeRun : List Char → Option (List Nat × List Char)
  | [] => none
  | c :: cs => if c.isDigit then some (runAux (c :: cs) 0 []) else none

/-- Modelled from the spec: `VersionComparator.parse`.  Splits the raw
string into a leading numeric-dotted run and a trailing suffix; a string
with no leading numeric run is kept whole as malformed.  Total by
construction: every input yields some `ParsedVersion`. -/
def parse (raw : String) : ParsedVersion :=
  match takeRun raw.data with
  | none => .malformed raw
  | some (segs, rest) =>
    .wellformed segs (if rest = [] then none else some (String.mk rest))

/-- Modelled from the spec: error taxonomy of the library —
`NotFoundError` and `NoVersionableExecutableError`. -/
inductive Err where
  | notFound
  | noVersionableExecutable
deriving DecidableEq, Repr

/-- Modelled from the spec: the filesystem facts PathScanner consults,
injected as configuration (spec §9): directory listings (`none` when the
directory is missing or unreadable), the executable-regular-file test, and
symlink resolution to a canonical target. -/
structure FS where
  listDir : String → Option (List String)
  isExecutableFile : String → Bool
  resolve : String → String

/-- Join a directory and a base name into a path. -/
def joinPath (dir name : String) : String := dir ++ "/" ++ name

/-- Modelled from the spec: the raw candidate enumeration — for each
readable search-path directory in order, the entries whose base name matches
the command and that pass the executable-file filter, in listing order. -/
def candidates (fs : FS) (searchPath : List String) (cmd : String) :
    List String :=
  searchPath.foldr
    (fun dir rest =>
      (match fs.listDir dir with
       | none => []
       | some entries =>
         ((entries.filter (fun e => e = cmd)).map (joinPath dir)).filter
           (fun p => fs.isExecutableFile p)) ++ rest)
    []

/-- Keep the first occurrence of each `key`-class, skipping elements whose
key was already seen. -/
def dedupByAux (key : String → String) (seen : List String) :
    List String → List String
  | [] => []
  | x :: xs =>
    if key x ∈ seen then dedupByAux key seen xs
    else x :: dedupByAux key (key x :: seen) xs

/-- Collapse duplicates by resolved target, first-seen order preserved. -/
def dedupBy (key : String → String) (l : List String) : List String :=
  dedupByAux key [] l

/-- Modelled from the spec: `PathScanner.find_executables` — enumerate
candidates over the search path, collapse duplicates by resolved symlink
target, and fail with `NotFoundError` exactly when the result is empty. -/
def find_executables (fs : FS) (searchPath : List String) (cmd : String) :
    Except Err (List String) :=
  match dedupBy fs.resolve (candidates fs searchPath cmd) with
  | [] => .error .notFound
  | x :: xs => .ok (x :: xs)

/-- Is the second version strictly greater than the first? -/
def cvGt (cand best : ExecutableInfo) : Bool :=
  compareVersions (parse cand.version) (parse best.version) == .gt

/-- Modelled from the spec: the reduction of LatestSelector — keep the
current best unless a later candidate is strictly greater, so the
earliest-discovered candidate wins ties. -/
def selectMax : ExecutableInfo → List ExecutableInfo → ExecutableInfo
  | best, [] => best
  | best, c :: rest => selectMax (if cvGt c best then c else best) rest

/-- Modelled from the spec: `LatestSelector.find_latest_command` — scan for
candidates, probe each (a probe failure drops the candidate without
aborting), and reduce the survivors to the maximal-version, earliest-on-tie
winner.  The probe is injected as a per-candidate result function
(spec §9). -/
def find_latest_command (fs : FS) (searchPath : List String)
    (probe : String → Except String ExecutableInfo) (cmd : String) :
    Except Err ExecutableInfo :=
  match find_executables fs searchPath cmd with
  | .error e => .error e
  | .ok paths =>
    match paths.filterMap (fun p => (probe p).toOption) with
    | [] => .error .noVersionableExecutable
    | i :: rest => .ok (selectMax i rest)

/-- The Python exceptions `main` can see from `find_latest_command`:
the two typed library errors, or any other `Exception` subclass; each
carries the message that `str(e)` yields. -/
inductive PyError where
  | notFoundError (msg : String)
  | noVersionableExecutableError (msg : String)
  | otherError (msg : String)
deriving DecidableEq, Repr

/-- The message `str(e)` of a Python exception in our model. -/
def PyError.message : PyError → String
  | .notFoundError m => m
  | .noVersionableExecutableError m => m
  | .otherError m => m

/-- Observable outcome of one CLI invocation: the lines printed to standard
output, the lines printed to standard error, and the process exit status. -/
structure CLIOutput where
  stdout : List String
  stderr : List String
  exitCode : Nat
deriving DecidableEq, Repr

/-- Modelled argparse behaviour of `__main__.py` lines 8–12 for runs whose
arguments are plain (non-option) tokens: a parser with one required
positional `command` accepts exactly one argument; with zero it errors
(required argument missing) and with two or more it errors (unrecognized
arguments), printing usage and exiting with status 2 in both cases. -/
def parseArgs (argv : List String) : Except Nat String :=
  match argv with
  | [cmd] => .ok cmd
  | _ => .error 2

/-- Embedded from `__main__.py` `main` (lines 14–20): call
`find_latest_command(args.command)`; on success print `result.path` and
return 0; on any `Exception` print `Error: <message>` to stderr and
return 1. -/
def mainBody (outcome : Except PyError ExecutableInfo) : CLIOutput :=
  match outcome with
  | .ok result => ⟨[result.path], [], 0⟩
  | .error e => ⟨[], ["Error: " ++ e.message], 1⟩

/-- Embedded from `__main__.py`: full CLI behaviour.  `run` stands for the
call `find_latest_command(cmd)`, returning either the result or the raised
exception.  Argument parsing happens first; if it fails, the process exits
with argparse's status before `run` is ever consulted. -/
def cli (argv : List String) (run : String → Except PyError ExecutableInfo) :
    CLIOutput :=
  match parseArgs argv with
  | .error code => ⟨[], ["usage"], code⟩
  | .ok cmd => mainBody (run cmd)

/-! ### Order-theoretic facts about the comparator -/

theorem cmpList_self (l : List Nat) : cmpList l l = .eq := by
  induction l with
  | nil => rfl
  | cons x xs ih => simp [cmpList, ih]

theorem cmpList_eq_eq_iff : ∀ a b : List Nat, cmpList a b = .eq ↔ a = b := by
  intro a
  induction a with
  | nil => intro b; cases b <;> simp [cmpList]
  | cons x xs ih =>
    intro b
    cases b with
    | nil => simp [cmpList]
    | cons y ys =>
      simp only [cmpList, List.cons.injEq]
      rcases Nat.lt_trichotomy x y with h | h | h
      · simp only [if_pos h]
        constructor
        · intro hc; cases hc
        · intro hc; omega
      · subst h
        simp only [if_neg (Nat.lt_irrefl x), ih]
        simp
      · rw [if_neg (Nat.lt_asymm h), if_pos h]
        constructor
        · intro hc; cases hc
        · intro hc; omega

theorem cmpList_swap : ∀ a b : List Nat, (cmpList a b).swap = cmpList b a := by
  intro a
  induction a with
  | nil => intro b; cases b <;> rfl
  | cons x xs ih =>
    intro b
    cases b with
    | nil => rfl
    | cons y ys =>
      simp only [cmpList]
      rcases Nat.lt_trichotomy x y with h | h | h
      · rw [if_pos h, if_neg (Nat.lt_asymm h), if_pos h]; rfl
      · subst h
        simp only [if_neg (Nat.lt_irrefl x)]
        exact ih ys
      · rw [if_neg (Nat.lt_asymm h), if_pos h, if_pos h]; rfl

theorem cmpList_trans_lt :
    ∀ a b c : List Nat,
      cmpList a b = .lt → cmpList b c = .lt → cmpList a c = .lt := by
  intro a
  induction a with
  | nil =>
    intro b c hab hbc
    cases b with
    | nil => cases hab
    | cons y ys =>
      cases c with
      | nil => cases hbc
      | cons z zs => rfl
  | cons x xs ih =>
    intro b c hab hbc
    cases b with
    | nil => cases hab
    | cons y ys =>
      cases c with
      | nil => cases hbc
      | cons z zs =>
        simp only [cmpList] at hab hbc ⊢
        rcases Nat.lt_trichotomy x y with hxy | hxy | hxy
        · rcases Nat.lt_trichotomy y z with hyz | hyz | hyz
          · rw [if_pos (Nat.lt_trans hxy hyz)]
          · subst hyz; rw [if_pos hxy]
          · rw [if_neg (Nat.lt_asymm hyz), if_pos hyz] at hbc; cases hbc
        · subst hxy
          rcases Nat.lt_trichotomy x z with hyz | hyz | hyz
          · rw [if_pos hyz]
          · subst hyz
            rw [if_neg (Nat.lt_irrefl x), if_neg (Nat.lt_irrefl x)] at hab hbc ⊢
            exact ih ys zs hab hbc
          · rw [if_neg (Nat.lt_asymm hyz), if_pos hyz] at hbc; cases hbc
        · rw [if_neg (Nat.lt_asymm hxy), if_pos hxy] at hab; cases hab

theorem cmpList_append_congr :
    ∀ a b : List Nat, a.length = b.length → ∀ u v : List Nat,
      cmpList (a ++ u) (b ++ v) =
        (match cmpList a b with | .eq => cmpList u v | o => o) := by
  intro a
  induction a with
  | nil =>
    intro b hlen u v
    cases b with
    | nil => simp [cmpList]
    | cons y ys => simp at hlen
  | cons x xs ih =>
    intro b hlen u v
    cases b with
    | nil => simp at hlen
    | cons y ys =>
      simp only [List.length_cons, Nat.add_right_cancel_iff] at hlen
      simp only [List.cons_append, cmpList]
      rcases Nat.lt_trichotomy x y with h | h | h
      · rw [if_pos h, if_pos h]
      · subst h
        simp only [if_neg (Nat.lt_irrefl x)]
        exact ih ys hlen u v
      · rw [if_neg (Nat.lt_asymm h), if_pos h, if_neg (Nat.lt_asymm h),
          if_pos h]

theorem padTo_length (l : List Nat) (n : Nat) (h : l.length ≤ n) :
    (padTo l n).length = n := by
  simp [padTo]; omega

theorem padTo_split (l : List Nat) (m n : Nat) (h1 : l.length ≤ m)
    (h2 : m ≤ n) : padTo l n = padTo l m ++ List.replicate (n - m) 0 := by
  simp only [padTo, List.append_assoc, ← List.replicate_add]
  congr 2
  omega

theorem compareSegs_eq_pad (a b : List Nat) (N : Nat) (ha : a.length ≤ N)
    (hb : b.length ≤ N) :
    compareSegs a b = cmpList (padTo a N) (padTo b N) := by
  unfold compareSegs
  have hna : a.length ≤ max a.length b.length := Nat.le_max_left _ _
  have hnb : b.length ≤ max a.length b.length := Nat.le_max_right _ _
  have hnN : max a.length b.length ≤ N := Nat.max_le.mpr ⟨ha, hb⟩
  rw [padTo_split a (max a.length b.length) N hna hnN,
    padTo_split b (max a.length b.length) N hnb hnN,
    cmpList_append_congr _ _
      (by rw [padTo_length _ _ hna, padTo_length _ _ hnb])]
  cases hc : cmpList (padTo a (max a.length b.length))
      (padTo b (max a.length b.length)) <;>
    simp [cmpList_self]

theorem compareSegs_self (l : List Nat) : compareSegs l l = .eq := by
  unfold compareSegs; exact cmpList_self _

theorem compareSegs_swap (a b : List Nat) :
    (compareSegs a b).swap = compareSegs b a := by
  have hN : max a.length b.length = max b.length a.length := Nat.max_comm _ _
  rw [compareSegs_eq_pad a b (max a.length b.length) (Nat.le_max_left _ _)
      (Nat.le_max_right _ _),
    compareSegs_eq_pad b a (max a.length b.length)
      (by omega) (by omega)]
  exact cmpList_swap _ _

theorem compareSegs_trans_lt (a b c : List Nat)
    (hab : compareSegs a b = .lt) (hbc : compareSegs b c = .lt) :
    compareSegs a c = .lt := by
  have ha : a.length ≤ max (max a.length b.length) c.length := by omega
  have hb : b.length ≤ max (max a.length b.length) c.length := by omega
  have hc : c.length ≤ max (max a.length b.length) c.length := by omega
  rw [compareSegs_eq_pad a b _ ha hb] at hab
  rw [compareSegs_eq_pad b c _ hb hc] at hbc
  rw [compareSegs_eq_pad a c _ ha hc]
  exact cmpList_trans_lt _ _ _ hab hbc

theorem compareSegs_congr_right (a b c : List Nat)
    (hbc : compareSegs b c = .eq) : compareSegs a b = compareSegs a c := by
  have ha : a.length ≤ max (max a.length b.length) c.length := by omega
  have hb : b.length ≤ max (max a.length b.length) c.length := by omega
  have hc : c.length ≤ max (max a.length b.length) c.length := by omega
  rw [compareSegs_eq_pad b c _ hb hc, cmpList_eq_eq_iff] at hbc
  rw [compareSegs_eq_pad a b _ ha hb, compareSegs_eq_pad a c _ ha hc, hbc]

theorem compareSegs_congr_left (a b c : List Nat)
    (hab : compareSegs a b = .eq) : compareSegs a c = compareSegs b c := by
  have ha : a.length ≤ max (max a.length b.length) c.length := by omega
  have hb : b.length ≤ max (max a.length b.length) c.length := by omega
  have hc : c.length ≤ max (max a.length b.length) c.length := by omega
  rw [compareSegs_eq_pad a b _ ha hb, cmpList_eq_eq_iff] at hab
  rw [compareSegs_eq_pad a c _ ha hc, compareSegs_eq_pad b c _ hb hc, hab]

theorem strCodes_inj {a b : String} (h : strCodes a = strCodes b) :
    a = b := by
  unfold strCodes at h
  have hdata : a.data = b.data := by
    refine List.map_injective_iff.mpr ?_ h
    intro c d hcd
    exact Char.ext (UInt32.ext hcd)
  cases a; cases b; simp_all

theorem cmpStr_self (s : String) : cmpStr s s = .eq := by
  unfold cmpStr; exact cmpList_self _

theorem cmpStr_eq_eq_iff (a b : String) : cmpStr a b = .eq ↔ a = b := by
  unfold cmpStr
  rw [cmpList_eq_eq_iff]
  constructor
  · exact strCodes_inj
  · intro h; rw [h]

theorem cmpStr_swap (a b : String) : (cmpStr a b).swap = cmpStr b a := by
  unfold cmpStr; exact cmpList_swap _ _

theorem cmpStr_trans_lt (a b c : String) (hab : cmpStr a b = .lt)
    (hbc : cmpStr b c = .lt) : cmpStr a c = .lt := by
  unfold cmpStr at hab hbc ⊢
  exact cmpList_trans_lt _ _ _ hab hbc

theorem compareSuffix_self (s : Option String) : compareSuffix s s = .eq := by
  cases s with
  | none => rfl
  | some v => simp [compareSuffix, cmpStr_self]

theorem compareSuffix_eq_eq_iff (a b : Option String) :
    compareSuffix a b = .eq ↔ a = b := by
  cases a <;> cases b <;> simp [compareSuffix, cmpStr_eq_eq_iff]

theorem compareSuffix_swap (a b : Option String) :
    (compareSuffix a b).swap = compareSuffix b a := by
  cases a <;> cases b
  · rfl
  · rfl
  · rfl
  · exact cmpStr_swap _ _

theorem compareSuffix_trans_lt (a b c : Option String)
    (hab : compareSuffix a b = .lt) (hbc : compareSuffix b c = .lt) :
    compareSuffix a c = .lt := by
  cases a with
  | none =>
    cases b with
    | none => cases hab
    | some vb => cases hab
  | some va =>
    cases b with
    | none =>
      cases c with
      | none => cases hbc
      | some vc => cases hbc
    | some vb =>
      cases c with
      | none => rfl
      | some vc => exact cmpStr_trans_lt _ _ _ hab hbc

theorem compareVersions_self (v : ParsedVersion) :
    compareVersions v v = .eq := by
  cases v with
  | malformed r => simp [compareVersions, cmpStr_self]
  | wellformed s f =>
    simp [compareVersions, compareSegs_self, compareSuffix_self]

theorem compareVersions_swap (a b : ParsedVersion) :
    (compareVersions a b).swap = compareVersions b a := by
  cases a with
  | malformed ra =>
    cases b with
    | malformed rb => simp [compareVersions, cmpStr_swap]
    | wellformed sb fb => rfl
  | wellformed sa fa =>
    cases b with
    | malformed rb => rfl
    | wellformed sb fb =>
      simp only [compareVersions]
      have hs := compareSegs_swap sa sb
      cases h : compareSegs sa sb <;> rw [h] at hs <;> rw [← hs]
      · rfl
      · exact compareSuffix_swap fa fb
      · rfl

theorem compareVersions_eq_eq (a b : ParsedVersion)
    (h : compareVersions a b = .eq) :
    (∀ c, compareVersions c a = compareVersions c b) ∧
      (∀ c, compareVersions a c = compareVersions b c) := by
  cases a with
  | malformed ra =>
    cases b with
    | malformed rb =>
      simp only [compareVersions] at h
      rw [cmpStr_eq_eq_iff] at h
      subst h
      exact ⟨fun c => rfl, fun c => rfl⟩
    | wellformed sb fb => cases h
  | wellformed sa fa =>
    cases b with
    | malformed rb => cases h
    | wellformed sb fb =>
      simp only [compareVersions] at h
      have hseg : compareSegs sa sb = .eq := by
        cases hs : compareSegs sa sb
        · rw [hs] at h
          exact Ordering.noConfusion (show Ordering.lt = Ordering.eq from h)
        · rfl
        · rw [hs] at h
          exact Ordering.noConfusion (show Ordering.gt = Ordering.eq from h)
      rw [hseg] at h
      rw [compareSuffix_eq_eq_iff] at h
      subst h
      constructor
      · intro c
        cases c with
        | malformed rc => rfl
        | wellformed sc fc =>
          simp only [compareVersions]
          rw [compareSegs_congr_right sc sa sb hseg]
      · intro c
        cases c with
        | malformed rc => rfl
        | wellformed sc fc =>
          simp only [compareVersions]
          rw [compareSegs_congr_left sa sb sc hseg]

theorem compareVersions_trans_lt (a b c : ParsedVersion)
    (hab : compareVersions a b = .lt) (hbc : compareVersions b c = .lt) :
    compareVersions a c = .lt := by
  cases a with
  | malformed ra =>
    cases b with
    | malformed rb =>
      cases c with
      | malformed rc =>
        simp only [compareVersions] at hab hbc ⊢
        exact cmpStr_trans_lt _ _ _ hab hbc
      | wellformed sc fc => rfl
    | wellformed sb fb =>
      cases c with
      | malformed rc => cases hbc
      | wellformed sc fc => rfl
  | wellformed sa fa =>
    cases b with
    | malformed rb => cases hab
    | wellformed sb fb =>
      cases c with
      | malformed rc => cases hbc
      | wellformed sc fc =>
        simp only [compareVersions] at hab hbc ⊢
        cases hs1 : compareSegs sa sb <;> rw [hs1] at hab
        · cases hs2 : compareSegs sb sc <;> rw [hs2] at hbc
          · rw [compareSegs_trans_lt sa sb sc hs1 hs2]
          · rw [← compareSegs_congr_right sa sb sc hs2, hs1]
          · cases hbc
        · cases hs2 : compareSegs sb sc <;> rw [hs2] at hbc
          · rw [compareSegs_congr_left sa sb sc hs1, hs2]
          · rw [compareSegs_congr_left sa sb sc hs1, hs2]
            exact compareSuffix_trans_lt _ _ _ hab hbc
          · cases hbc
        · cases hab

/-! ### Claims about the CLI (`__main__.py`) -/

/-- C1: for every invocation of the CLI with one positional command
argument, if `find_latest_command` succeeds the CLI prints the winning path
to standard output and exits with status 0; if it raises any failure the
CLI prints `Error: <message>` to standard error and exits with status 1. -/
theorem claim_C1 (cmd : String)
    (run : String → Except PyError ExecutableInfo) :
    (∀ info, run cmd = .ok info → cli [cmd] run = ⟨[info.path], [], 0⟩) ∧
    (∀ e, run cmd = .error e →
      cli [cmd] run = ⟨[], ["Error: " ++ e.message], 1⟩) := by
  constructor
  · intro info h
    simp [cli, parseArgs, mainBody, h]
  · intro e h
    simp [cli, parseArgs, mainBody, h]

theorem claim_C1_witness :
    cli ["python3"] (fun _ => .ok ⟨"/usr/bin/python3", "3.11.4"⟩) =
        ⟨["/usr/bin/python3"], [], 0⟩ ∧
      cli ["python3"] (fun _ => .error (.notFoundError "not found")) =
        ⟨[], ["Error: " ++ "not found"], 1⟩ :=
  ⟨(claim_C1 "python3" (fun _ => .ok ⟨"/usr/bin/python3", "3.11.4"⟩)).1
      ⟨"/usr/bin/python3", "3.11.4"⟩ rfl,
    (claim_C1 "python3" (fun _ => .error (.notFoundError "not found"))).2
      (.notFoundError "not found") rfl⟩

/-- C9: with no positional argument or with extra arguments, argument
parsing terminates the process with argparse's usage-error status 2 before
`find_latest_command` is consulted; in particular the outcome does not
depend on `run` and the status is not the `Error:` path's 1. -/
theorem claim_C9 (argv : List String)
    (run : String → Except PyError ExecutableInfo)
    (h : ∀ c, argv ≠ [c]) :
    (cli argv run).exitCode = 2 ∧ (cli argv run).exitCode ≠ 1 ∧
      ∀ run', cli argv run = cli argv run' := by
  have hp : parseArgs argv = .error 2 := by
    cases argv with
    | nil => rfl
    | cons a rest =>
      cases rest with
      | nil => exact absurd rfl (h a)
      | cons b r => rfl
  refine ⟨?_, ?_, ?_⟩ <;> simp [cli, hp]

theorem claim_C9_witness :
    (cli [] (fun _ => .ok ⟨"/p", "1"⟩)).exitCode = 2 ∧
      (cli ["a", "b"] (fun _ => .ok ⟨"/p", "1"⟩)).exitCode = 2 :=
  ⟨(claim_C9 [] (fun _ => .ok ⟨"/p", "1"⟩) (fun c hc => by cases hc)).1,
    (claim_C9 ["a", "b"] (fun _ => .ok ⟨"/p", "1"⟩)
      (fun c hc => by cases hc)).1⟩

/-- C10: `main` catches every `Exception`: whatever exception
`find_latest_command` raises — a typed library error or any other — the
CLI prints only `Error: <message>`, exits 1, and the distinction between
exception types is collapsed (two exceptions with the same message give
identical observable outcomes). -/
theorem claim_C10 (cmd : String) (e : PyError) :
    cli [cmd] (fun _ => .error e) = ⟨[], ["Error: " ++ e.message], 1⟩ ∧
      ∀ e' : PyError, e.message = e'.message →
        cli [cmd] (fun _ => .error e) = cli [cmd] (fun _ => .error e') := by
  constructor
  · simp [cli, parseArgs, mainBody]
  · intro e' hm
    simp [cli, parseArgs, mainBody, hm]

theorem claim_C10_witness :
    cli ["x"] (fun _ => .error (.otherError "boom")) =
        ⟨[], ["Error: " ++ "boom"], 1⟩ ∧
      cli ["x"] (fun _ => .error (.notFoundError "m")) =
        cli ["x"] (fun _ => .error (.otherError "m")) :=
  ⟨(claim_C10 "x" (.otherError "boom")).1,
    (claim_C10 "x" (.notFoundError "m")).2 (.otherError "m") rfl⟩

/-! ### Claims about the version comparator -/

/-- C2: when two versions' numeric runs differ, `compareVersions` orders
them exactly by the position-by-position integer comparison of segments
with zero padding (`compareSegs`); in particular `3.11` equals `3.11.0`,
`10.0` beats `9.9` numerically, and `3.11.4` beats `3.9.0`. -/
theorem claim_C2 :
    (∀ sa fa sb fb, compareSegs sa sb ≠ .eq →
      compareVersions (.wellformed sa fa) (.wellformed sb fb) =
        compareSegs sa sb) ∧
    compareVersions (parse "3.11") (parse "3.11.0") = .eq ∧
    compareVersions (parse "10.0") (parse "9.9") = .gt ∧
    compareVersions (parse "3.11.4") (parse "3.9.0") = .gt := by
  refine ⟨?_, by decide, by decide, by decide⟩
  intro sa fa sb fb hne
  simp only [compareVersions]

theorem claim_C2_witness :
    compareVersions (.wellformed [10, 0] none) (.wellformed [9, 9] none) =
      compareSegs [10, 0] [9, 9] :=
  claim_C2.1 [10, 0] none [9, 9] none (by decide)

/-- C3: with equal numeric prefixes, a version with a suffix is strictly
less than one without, and two suffixed versions compare by plain string
comparison of the suffixes; in particular `3.11.4-rc1` < `3.11.4`. -/
theorem claim_C3 :
    (∀ sa sb suf, compareSegs sa sb = .eq →
      compareVersions (.wellformed sa (some suf)) (.wellformed sb none) =
          .lt ∧
        compareVersions (.wellformed sa none) (.wellformed sb (some suf)) =
          .gt) ∧
    (∀ sa sb sufa sufb, compareSegs sa sb = .eq →
      compareVersions (.wellformed sa (some sufa))
          (.wellformed sb (some sufb)) =
        cmpStr sufa sufb) ∧
    compareVersions (parse "3.11.4-rc1") (parse "3.11.4") = .lt := by
  refine ⟨?_, ?_, by decide⟩
  · intro sa sb suf h
    constructor <;> simp only [compareVersions] <;> rw [h] <;> rfl
  · intro sa sb sufa sufb h
    simp only [compareVersions]
    rw [h]
    rfl

theorem claim_C3_witness :
    compareVersions (.wellformed [3, 11, 4] (some "-rc1"))
        (.wellformed [3, 11, 4] none) = .lt ∧
      compareVersions (.wellformed [1] (some "-a"))
          (.wellformed [1, 0] (some "-b")) = cmpStr "-a" "-b" :=
  ⟨((claim_C3.1 [3, 11, 4] [3, 11, 4] "-rc1" (by decide)).1),
    claim_C3.2.1 [1] [1, 0] "-a" "-b" (by decide)⟩

/-- C4: `parse` is total — every string yields a `ParsedVersion`, the
malformed case keeping the raw text — and `compareVersions` is a strict
weak ordering: reflexivity-free (a value compares `eq` to itself),
antisymmetric (swapping arguments swaps the ordering), and transitive;
every malformed string is strictly below every well-formed one, and two
malformed strings compare by raw lexical string order. -/
theorem claim_C4 :
    (∀ s : String,
      parse s = .malformed s ∨ ∃ segs suf, parse s = .wellformed segs suf) ∧
    (∀ v, compareVersions v v = .eq) ∧
    (∀ a b, (compareVersions a b).swap = compareVersions b a) ∧
    (∀ a b c, compareVersions a b = .lt → compareVersions b c = .lt →
      compareVersions a c = .lt) ∧
    (∀ ra sb fb, compareVersions (.malformed ra) (.wellformed sb fb) = .lt) ∧
    (∀ ra rb, compareVersions (.malformed ra) (.malformed rb) =
      cmpStr ra rb) := by
  refine ⟨?_, compareVersions_self, compareVersions_swap,
    compareVersions_trans_lt, fun ra sb fb => rfl, fun ra rb => rfl⟩
  intro s
  unfold parse
  cases h : takeRun s.data with
  | none => left; rfl
  | some v =>
    obtain ⟨segs, rest⟩ := v
    right
    exact ⟨segs, _, rfl⟩

theorem claim_C4_witness :
    compareVersions (parse "1.0") (parse "3.0") = .lt :=
  claim_C4.2.2.2.1 (parse "1.0") (parse "2.0") (parse "3.0") (by decide)
    (by decide)

/-! ### Facts about deduplication and the selection fold -/

theorem dedupByAux_spec (key : String → String) :
    ∀ (l seen : List String),
      List.Sublist (dedupByAux key seen l) l ∧
      ((dedupByAux key seen l).map key).Nodup ∧
      (∀ x ∈ dedupByAux key seen l, key x ∉ seen) ∧
      (∀ x ∈ l, key x ∉ seen → key x ∈ (dedupByAux key seen l).map key) ∧
      (∀ z ∈ dedupByAux key seen l, ∃ pre post, l = pre ++ z :: post ∧
        ∀ y ∈ pre, key y ≠ key z ∨ key y ∈ seen) := by
  intro l
  induction l with
  | nil =>
    intro seen
    refine ⟨List.Sublist.refl _, List.nodup_nil, ?_, ?_, ?_⟩
    · intro x hx; cases hx
    · intro x hx; cases hx
    · intro z hz; cases hz
  | cons x xs ih =>
    intro seen
    by_cases hmem : key x ∈ seen
    · rw [dedupByAux, if_pos hmem]
      obtain ⟨hsub, hnodup, hseen, hcov, hocc⟩ := ih seen
      refine ⟨hsub.cons _, hnodup, hseen, ?_, ?_⟩
      · intro z hz hzseen
        cases hz with
        | head => exact absurd hmem hzseen
        | tail _ hz2 => exact hcov z hz2 hzseen
      · intro z hz
        obtain ⟨pre, post, hsplit, hfirst⟩ := hocc z hz
        refine ⟨x :: pre, post, ?_, ?_⟩
        · rw [List.cons_append, hsplit]
        · intro y hy
          rcases List.mem_cons.mp hy with h2 | h2
          · right; rw [h2]; exact hmem
          · exact hfirst y h2
    · rw [dedupByAux, if_neg hmem]
      obtain ⟨hsub, hnodup, hseen, hcov, hocc⟩ := ih (key x :: seen)
      refine ⟨hsub.cons₂ _, ?_, ?_, ?_, ?_⟩
      · rw [List.map_cons, List.nodup_cons]
        refine ⟨?_, hnodup⟩
        intro hkx
        rcases List.mem_map.mp hkx with ⟨y, hy, hky⟩
        refine hseen y hy ?_
        rw [hky]
        exact List.mem_cons_self _ _
      · intro z hz
        cases hz with
        | head => exact hmem
        | tail _ hz2 =>
          intro hzseen
          exact hseen z hz2 (List.mem_cons_of_mem _ hzseen)
      · intro z hz hzseen
        cases hz with
        | head => rw [List.map_cons]; exact List.mem_cons_self _ _
        | tail _ hz2 =>
          rw [List.map_cons]
          by_cases hzx : key z = key x
          · rw [hzx]; exact List.mem_cons_self _ _
          · refine List.mem_cons_of_mem _ ?_
            refine hcov z hz2 ?_
            intro hin
            rcases List.mem_cons.mp hin with h2 | h2
            · exact hzx h2
            · exact hzseen h2
      · intro z hz
        rcases List.mem_cons.mp hz with h2 | h2
        · refine ⟨[], xs, ?_, ?_⟩
          · rw [List.nil_append, h2]
          · intro y hy; cases hy
        · have hzx : key z ≠ key x := by
            have h3 := hseen z h2
            intro he
            refine h3 ?_
            rw [he]
            exact List.mem_cons_self _ _
          obtain ⟨pre, post, hsplit, hfirst⟩ := hocc z h2
          refine ⟨x :: pre, post, ?_, ?_⟩
          · rw [List.cons_append, hsplit]
          · intro y hy
            rcases List.mem_cons.mp hy with h3 | h3
            · left; rw [h3]; exact fun he => hzx he.symm
            · rcases hfirst y h3 with h4 | h4
              · left; exact h4
              · rcases List.mem_cons.mp h4 with h5 | h5
                · left; rw [h5]; exact fun he => hzx he.symm
                · right; exact h5

theorem dedupBy_spec (key : String → String) (l : List String) :
    List.Sublist (dedupBy key l) l ∧ ((dedupBy key l).map key).Nodup ∧
      (∀ x ∈ l, key x ∈ (dedupBy key l).map key) ∧
      ∀ z ∈ dedupBy key l, ∃ pre post, l = pre ++ z :: post ∧
        ∀ y ∈ pre, key y ≠ key z := by
  obtain ⟨h1, h2, h3, h4, h5⟩ := dedupByAux_spec key l []
  refine ⟨h1, h2, fun x hx => h4 x hx (by intro h; cases h), ?_⟩
  intro z hz
  obtain ⟨pre, post, hsplit, hfirst⟩ := h5 z hz
  refine ⟨pre, post, hsplit, ?_⟩
  intro y hy
  rcases hfirst y hy with h6 | h6
  · exact h6
  · cases h6

theorem dedupBy_nil_iff (key : String → String) (l : List String) :
    dedupBy key l = [] ↔ l = [] := by
  cases l with
  | nil => simp [dedupBy, dedupByAux]
  | cons x xs =>
    simp only [dedupBy, dedupByAux]
    rw [if_neg (by intro h; cases h)]
    simp

/-- Comparison of two probed executables by parsed version. -/
def cvInfo (a b : ExecutableInfo) : Ordering :=
  compareVersions (parse a.version) (parse b.version)

theorem cvGt_eq_true_iff (c b : ExecutableInfo) :
    cvGt c b = true ↔ cvInfo c b = .gt := by
  unfold cvGt cvInfo
  cases h : compareVersions (parse c.version) (parse b.version) <;> decide

theorem compareVersions_gt_iff (a b : ParsedVersion) :
    compareVersions a b = .gt ↔ compareVersions b a = .lt := by
  have h := compareVersions_swap b a
  constructor
  · intro hgt
    rw [hgt] at h
    cases hc : compareVersions b a
    · rfl
    · rw [hc] at h; exact absurd h (by decide)
    · rw [hc] at h; exact absurd h (by decide)
  · intro hlt
    rw [hlt] at h
    exact h.symm

theorem compareVersions_notgt_lt (a b c : ParsedVersion)
    (hab : compareVersions a b ≠ .gt) (hbc : compareVersions b c = .lt) :
    compareVersions a c = .lt := by
  cases h : compareVersions a b
  · exact compareVersions_trans_lt a b c h hbc
  · rw [(compareVersions_eq_eq a b h).2 c]
    exact hbc
  · exact absurd h hab

theorem compareVersions_lt_notgt (a b c : ParsedVersion)
    (hab : compareVersions a b = .lt) (hbc : compareVersions b c ≠ .gt) :
    compareVersions a c = .lt := by
  cases h : compareVersions b c
  · exact compareVersions_trans_lt a b c hab h
  · rw [← (compareVersions_eq_eq b c h).1 a]
    exact hab
  · exact absurd h hbc

theorem cvInfo_self (a : ExecutableInfo) : cvInfo a a = .eq :=
  compareVersions_self _

theorem cvInfo_gt_iff (a b : ExecutableInfo) :
    cvInfo a b = .gt ↔ cvInfo b a = .lt :=
  compareVersions_gt_iff _ _

theorem cvInfo_notgt_lt (a b c : ExecutableInfo) (hab : cvInfo a b ≠ .gt)
    (hbc : cvInfo b c = .lt) : cvInfo a c = .lt :=
  compareVersions_notgt_lt _ _ _ hab hbc

theorem cvInfo_lt_notgt (a b c : ExecutableInfo) (hab : cvInfo a b = .lt)
    (hbc : cvInfo b c ≠ .gt) : cvInfo a c = .lt :=
  compareVersions_lt_notgt _ _ _ hab hbc

theorem cvInfo_lt_ne_gt {a b : ExecutableInfo} (h : cvInfo a b = .lt) :
    cvInfo a b ≠ .gt := by
  rw [h]; decide

theorem selectMax_ite (best c : ExecutableInfo)
    (rest : List ExecutableInfo) :
    selectMax best (c :: rest) =
      selectMax (if cvGt c best then c else best) rest := rfl

theorem selectMax_spec (rest : List ExecutableInfo) :
    ∀ best : ExecutableInfo,
      ∃ pre post,
        best :: rest = pre ++ selectMax best rest :: post ∧
        (∀ y ∈ pre, cvInfo y (selectMax best rest) = .lt) ∧
        (∀ y ∈ best :: rest, cvInfo y (selectMax best rest) ≠ .gt) := by
  induction rest with
  | nil =>
    intro best
    refine ⟨[], [], rfl, ?_, ?_⟩
    · intro y hy; cases hy
    · intro y hy
      cases hy with
      | head =>
        show cvInfo best best ≠ .gt
        rw [cvInfo_self]
        decide
      | tail _ hy2 => cases hy2
  | cons c rest ih =>
    intro best
    rw [selectMax_ite]
    by_cases hg : cvGt c best
    · rw [if_pos hg]
      obtain ⟨pre, post, hsplit, hpre, hnot⟩ := ih c
      have hcbest : cvInfo best c = .lt := by
        rw [cvGt_eq_true_iff] at hg
        exact (cvInfo_gt_iff _ _).mp hg
      have hcr : cvInfo c (selectMax c rest) ≠ .gt :=
        hnot c (List.mem_cons_self c rest)
      have hbr : cvInfo best (selectMax c rest) = .lt :=
        cvInfo_lt_notgt _ _ _ hcbest hcr
      refine ⟨best :: pre, post, ?_, ?_, ?_⟩
      · rw [List.cons_append, ← hsplit]
      · intro y hy
        cases hy with
        | head => exact hbr
        | tail _ hy2 => exact hpre y hy2
      · intro y hy
        cases hy with
        | head => exact cvInfo_lt_ne_gt hbr
        | tail _ hy2 => exact hnot y hy2
    · rw [if_neg hg]
      obtain ⟨pre, post, hsplit, hpre, hnot⟩ := ih best
      have hcb : cvInfo c best ≠ .gt := by
        intro hcb
        exact hg ((cvGt_eq_true_iff c best).mpr hcb)
      cases pre with
      | nil =>
        simp only [List.nil_append] at hsplit
        injection hsplit with hb hr
        refine ⟨[], c :: rest, ?_, ?_, ?_⟩
        · rw [← hb, List.nil_append]
        · intro y hy; cases hy
        · intro y hy
          rw [← hb]
          cases hy with
          | head => rw [cvInfo_self]; decide
          | tail _ hy2 =>
            cases hy2 with
            | head => exact hcb
            | tail _ hy3 =>
              have hy4 := hnot y (List.mem_cons_of_mem _ hy3)
              rw [← hb] at hy4
              exact hy4
      | cons b0 pre2 =>
        rw [List.cons_append] at hsplit
        injection hsplit with hb hr
        subst hb
        have hbr : cvInfo best (selectMax best rest) = .lt :=
          hpre best (List.mem_cons_self _ _)
        have hcr : cvInfo c (selectMax best rest) = .lt :=
          cvInfo_notgt_lt c best _ hcb hbr
        refine ⟨best :: c :: pre2, post, ?_, ?_, ?_⟩
        · rw [List.cons_append, List.cons_append, ← hr]
        · intro y hy
          cases hy with
          | head => exact hbr
          | tail _ hy2 =>
            cases hy2 with
            | head => exact hcr
            | tail _ hy3 => exact hpre y (List.mem_cons_of_mem _ hy3)
        · intro y hy
          cases hy with
          | head => exact cvInfo_lt_ne_gt hbr
          | tail _ hy2 =>
            cases hy2 with
            | head => exact cvInfo_lt_ne_gt hcr
            | tail _ hy3 => exact hnot y (List.mem_cons_of_mem _ hy3)

/-! ### Claims about PathScanner and LatestSelector -/

/-- C6: `find_executables` returns each distinct resolved target at most
once, as a subsequence of the raw candidate enumeration (search-path order,
then listing order) covering every candidate's resolved target, and each
returned element is the first-discovered candidate of its resolved-target
class (no earlier candidate resolves to the same target); a missing or
unreadable directory is skipped without changing the outcome; and
`NotFoundError` is raised exactly when the candidate enumeration is empty. -/
theorem claim_C6 (fs : FS) (sp : List String) (cmd : String) :
    (∀ l, find_executables fs sp cmd = .ok l →
      (l.map fs.resolve).Nodup ∧ List.Sublist l (candidates fs sp cmd) ∧
        (∀ x ∈ candidates fs sp cmd, fs.resolve x ∈ l.map fs.resolve) ∧
        ∀ z ∈ l, ∃ pre post, candidates fs sp cmd = pre ++ z :: post ∧
          ∀ y ∈ pre, fs.resolve y ≠ fs.resolve z) ∧
    (find_executables fs sp cmd = .error .notFound ↔
      candidates fs sp cmd = []) ∧
    (∀ d p₁ p₂, fs.listDir d = none →
      find_executables fs (p₁ ++ d :: p₂) cmd =
        find_executables fs (p₁ ++ p₂) cmd) := by
  refine ⟨?_, ?_, ?_⟩
  · intro l hl
    have hd : l = dedupBy fs.resolve (candidates fs sp cmd) := by
      unfold find_executables at hl
      cases hcase : dedupBy fs.resolve (candidates fs sp cmd) with
      | nil => rw [hcase] at hl; cases hl
      | cons y ys =>
        rw [hcase] at hl
        injection hl with h2
        rw [← h2]
    obtain ⟨h1, h2, h3, h4⟩ := dedupBy_spec fs.resolve (candidates fs sp cmd)
    rw [hd]
    exact ⟨h2, h1, h3, h4⟩
  · constructor
    · intro h
      unfold find_executables at h
      cases hcase : dedupBy fs.resolve (candidates fs sp cmd) with
      | nil => exact (dedupBy_nil_iff _ _).mp hcase
      | cons y ys => rw [hcase] at h; cases h
    · intro h
      unfold find_executables
      rw [(dedupBy_nil_iff fs.resolve (candidates fs sp cmd)).mpr h]
  · intro d p₁ p₂ hd
    have hc : candidates fs (p₁ ++ d :: p₂) cmd =
        candidates fs (p₁ ++ p₂) cmd := by
      unfold candidates
      rw [List.foldr_append, List.foldr_append]
      congr 1
      simp [hd]
    unfold find_executables
    rw [hc]

/-- C5: `find_latest_command` fails with `NotFoundError` exactly when the
scan finds no candidates, fails with `NoVersionableExecutableError` exactly
when candidates exist but every probe fails, and a probe failure on one
candidate never aborts the search: one successful probe suffices for a
winner. -/
theorem find_latest_command_error (fs : FS) (sp : List String)
    (probe : String → Except String ExecutableInfo) (cmd : String)
    (e : Err) (hfe : find_executables fs sp cmd = .error e) :
    find_latest_command fs sp probe cmd = .error e := by
  unfold find_latest_command
  rw [hfe]

theorem find_latest_command_ok (fs : FS) (sp : List String)
    (probe : String → Except String ExecutableInfo) (cmd : String)
    (paths : List String) (hfe : find_executables fs sp cmd = .ok paths) :
    find_latest_command fs sp probe cmd =
      match paths.filterMap (fun p => (probe p).toOption) with
      | [] => .error .noVersionableExecutable
      | i :: rest => .ok (selectMax i rest) := by
  unfold find_latest_command
  rw [hfe]

theorem claim_C5 (fs : FS) (sp : List String)
    (probe : String → Except String ExecutableInfo) (cmd : String) :
    (find_latest_command fs sp probe cmd = .error .notFound ↔
      candidates fs sp cmd = []) ∧
    (find_latest_command fs sp probe cmd =
        .error .noVersionableExecutable ↔
      ∃ paths, find_executables fs sp cmd = .ok paths ∧ paths ≠ [] ∧
        ∀ p ∈ paths, (probe p).toOption = none) ∧
    (∀ paths p, find_executables fs sp cmd = .ok paths → p ∈ paths →
      (probe p).toOption ≠ none →
      ∃ info, find_latest_command fs sp probe cmd = .ok info) := by
  cases hfe : find_executables fs sp cmd with
  | error e =>
    have he : e = .notFound := by
      unfold find_executables at hfe
      cases hcase : dedupBy fs.resolve (candidates fs sp cmd) with
      | nil =>
        rw [hcase] at hfe
        injection hfe with h2
        rw [← h2]
      | cons y ys => rw [hcase] at hfe; cases hfe
    subst he
    have hl := find_latest_command_error fs sp probe cmd .notFound hfe
    refine ⟨?_, ?_, ?_⟩
    · constructor
      · intro _
        unfold find_executables at hfe
        cases hcase : dedupBy fs.resolve (candidates fs sp cmd) with
        | nil => exact (dedupBy_nil_iff _ _).mp hcase
        | cons y ys => rw [hcase] at hfe; cases hfe
      · intro _; exact hl
    · constructor
      · intro h
        rw [hl] at h
        injection h with h2
        cases h2
      · rintro ⟨paths, hp, _, _⟩
        cases hp
    · intro paths p hok hmem hsome
      cases hok
  | ok paths =>
    have hne : candidates fs sp cmd ≠ [] := by
      intro hnil
      unfold find_executables at hfe
      rw [(dedupBy_nil_iff fs.resolve (candidates fs sp cmd)).mpr hnil]
        at hfe
      cases hfe
    have hpne : paths ≠ [] := by
      unfold find_executables at hfe
      cases hcase : dedupBy fs.resolve (candidates fs sp cmd) with
      | nil => rw [hcase] at hfe; cases hfe
      | cons y ys =>
        rw [hcase] at hfe
        injection hfe with h2
        rw [← h2]
        intro hh
        cases hh
    have hl := find_latest_command_ok fs sp probe cmd paths hfe
    cases hfm : paths.filterMap (fun p => (probe p).toOption) with
    | nil =>
      have hl2 : find_latest_command fs sp probe cmd =
          .error .noVersionableExecutable := by rw [hl, hfm]
      refine ⟨?_, ?_, ?_⟩
      · constructor
        · intro h
          rw [hl2] at h
          injection h with h2
          cases h2
        · intro h; exact absurd h hne
      · constructor
        · intro _
          exact ⟨paths, rfl, hpne, List.filterMap_eq_nil_iff.mp hfm⟩
        · intro _; exact hl2
      · intro paths2 p hok hmem hsome
        injection hok with h2
        subst h2
        exact absurd (List.filterMap_eq_nil_iff.mp hfm p hmem) hsome
    | cons i rest =>
      have hl2 : find_latest_command fs sp probe cmd =
          .ok (selectMax i rest) := by rw [hl, hfm]
      refine ⟨?_, ?_, ?_⟩
      · constructor
        · intro h
          rw [hl2] at h
          cases h
        · intro h; exact absurd h hne
      · constructor
        · intro h
          rw [hl2] at h
          cases h
        · rintro ⟨paths2, hp, hne2, hall⟩
          injection hp with h2
          subst h2
          rw [List.filterMap_eq_nil_iff.mpr hall] at hfm
          cases hfm
      · intro paths2 p hok hmem hsome
        exact ⟨selectMax i rest, hl2⟩

/-- C7: on success the returned winner sits in the surviving probed list at
a position such that every earlier survivor compares strictly less, and no
survivor anywhere compares strictly greater — the maximum, earliest on
ties. -/
theorem claim_C7 (fs : FS) (sp : List String)
    (probe : String → Except String ExecutableInfo) (cmd : String)
    (paths : List String) (w : ExecutableInfo)
    (hpaths : find_executables fs sp cmd = .ok paths)
    (hw : find_latest_command fs sp probe cmd = .ok w) :
    ∃ pre post,
      paths.filterMap (fun p => (probe p).toOption) = pre ++ w :: post ∧
      (∀ y ∈ pre, cvInfo y w = .lt) ∧
      (∀ y ∈ paths.filterMap (fun p => (probe p).toOption),
        cvInfo y w ≠ .gt) := by
  rw [find_latest_command_ok fs sp probe cmd paths hpaths] at hw
  cases hfm : paths.filterMap (fun p => (probe p).toOption) with
  | nil => rw [hfm] at hw; cases hw
  | cons i rest =>
    rw [hfm] at hw
    injection hw with hw2
    obtain ⟨pre, post, hsplit, hpre, hnot⟩ := selectMax_spec rest i
    rw [hw2] at hsplit hpre hnot
    exact ⟨pre, post, hsplit, hpre, hnot⟩

/-- C8: the search is deterministic in the environment: two runs over
filesystems, probes and search paths that agree observation-for-observation
return the same winner. -/
theorem claim_C8 (fs₁ fs₂ : FS) (sp : List String)
    (probe₁ probe₂ : String → Except String ExecutableInfo) (cmd : String)
    (hdir : ∀ d, fs₁.listDir d = fs₂.listDir d)
    (hex : ∀ p, fs₁.isExecutableFile p = fs₂.isExecutableFile p)
    (hres : ∀ p, fs₁.resolve p = fs₂.resolve p)
    (hprobe : ∀ p, probe₁ p = probe₂ p) :
    find_latest_command fs₁ sp probe₁ cmd =
      find_latest_command fs₂ sp probe₂ cmd := by
  have h1 : fs₁ = fs₂ := by
    cases fs₁
    cases fs₂
    simp only [FS.mk.injEq]
    exact ⟨funext hdir, funext hex, funext hres⟩
  have h2 : probe₁ = probe₂ := funext hprobe
  rw [h1, h2]

/-- A tiny concrete filesystem used to exercise the theorems: two
directories on the path, both holding a `python3`, no symlinks. -/
def fsDemo : FS :=
  ⟨fun d => if d = "/a" then some ["python3"] else
      if d = "/b" then some ["python3", "other"] else none,
    fun _ => true,
    fun p => p⟩

/-- A concrete probe: known versions for the two demo candidates, failure
elsewhere. -/
def probeDemo : String → Except String ExecutableInfo :=
  fun p =>
    if p = "/a/python3" then .ok ⟨"/a/python3", "2.7.18"⟩ else
    if p = "/b/python3" then .ok ⟨"/b/python3", "3.11.4"⟩ else
    .error "probe failed"

theorem claim_C6_witness :
    find_executables fsDemo ("/gone" :: ["/a", "/b"]) "python3" =
      find_executables fsDemo ["/a", "/b"] "python3" :=
  (claim_C6 fsDemo [] "python3").2.2 "/gone" [] ["/a", "/b"] rfl

theorem claim_C5_witness :
    ∃ info,
      find_latest_command fsDemo ["/a", "/b"] probeDemo "python3" =
        .ok info :=
  (claim_C5 fsDemo ["/a", "/b"] probeDemo "python3").2.2
    ["/a/python3", "/b/python3"] "/b/python3" rfl (by decide) (by decide)

theorem claim_C7_witness :
    ∃ pre post,
      ["/a/python3", "/b/python3"].filterMap
          (fun p => (probeDemo p).toOption) =
        pre ++ (⟨"/b/python3", "3.11.4"⟩ : ExecutableInfo) :: post ∧
      (∀ y ∈ pre, cvInfo y ⟨"/b/python3", "3.11.4"⟩ = .lt) ∧
      ∀ y ∈ ["/a/python3", "/b/python3"].filterMap
          (fun p => (probeDemo p).toOption),
        cvInfo y ⟨"/b/python3", "3.11.4"⟩ ≠ .gt :=
  claim_C7 fsDemo ["/a", "/b"] probeDemo "python3"
    ["/a/python3", "/b/python3"] ⟨"/b/python3", "3.11.4"⟩ rfl rfl

theorem claim_C8_witness :
    find_latest_command fsDemo ["/a", "/b"] probeDemo "python3" =
      find_latest_command fsDemo ["/a", "/b"] probeDemo "python3" :=
  claim_C8 fsDemo fsDemo ["/a", "/b"] probeDemo probeDemo "python3"
    (fun _ => rfl) (fun _ => rfl) (fun _ => rfl) (fun _ => rfl)

end LatestVersion
